import Mathlib

/-!
Shallow embedding of the `pixelsort` crate (Veykril/pixelsort) and proofs
about it.  The canonical interval-set implementation lives in
`src/interval.rs` (`IntervalSet(Vec<Range<usize>>)`), the sort-and-rewrite
engine in `src/lib.rs` (`sort_image`).  Ranges are modelled as pairs
`(start, end)` of naturals, a `Vec<Range<usize>>` as a `List (Nat × Nat)`,
and pixel rows as Lean lists.  Fallible operations (which may panic in
Rust) return `Option`.
-/

namespace Pixelsort

/-- Stored ranges of an `IntervalSet`: the backing `Vec<Range<usize>>`,
each `Range` being the half-open `[start, end)`. -/
abbrev Ranges := List (Nat × Nat)

/-- Translation of `IntervalSet::new(size)`: the single range `0..size`. -/
def newSet (size : Nat) : Ranges := [(0, size)]

/-- Index of the last stored range whose `start` is `≤ p`: the candidate
computed in `IntervalSet::split_at` by
`self.0.iter_mut().enumerate().filter(|(_, range)| range.start <= at).last()`. -/
def lastIdxLE : Ranges → Nat → Option Nat
  | [], _ => none
  | r :: rest, p =>
    match lastIdxLE rest p with
    | some i => some (i + 1)
    | none => if r.1 ≤ p then some 0 else none

/-- Translation of `IntervalSet::split_at(at)`.  Returns the updated list of
ranges together with the returned `Option<(usize, usize)>` index pair:
the candidate range (last one with `start <= at`) is kept only when
`at < range.end`; when `range.start != at` the range is shrunk to
`start..at` and `at..end` is inserted right after it. -/
def splitAt (l : Ranges) (p : Nat) : Ranges × Option (Nat × Nat) :=
  match lastIdxLE l p with
  | none => (l, none)
  | some idx =>
    match l[idx]? with
    | none => (l, none)
    | some r =>
      if p < r.2 then
        if r.1 ≠ p then
          (l.take idx ++ [(r.1, p), (p, r.2)] ++ l.drop (idx + 1), some (idx, idx + 1))
        else (l, some (idx, idx))
      else (l, none)

/-- Translation of `IntervalSet::start()`: `self.0.first().map(|r| r.start).unwrap_or(0)`. -/
def startOf (l : Ranges) : Nat := (l.head?.map Prod.fst).getD 0

/-- Translation of `IntervalSet::end()`: `self.0.last().map(|r| r.end).unwrap_or(0)`. -/
def endOf (l : Ranges) : Nat := (l.getLast?.map Prod.snd).getD 0

/-- Translation of `IntervalSet::full_range()`: `self.start()..self.end()`. -/
def fullRange (l : Ranges) : Nat × Nat := (startOf l, endOf l)

/-- Translation of `IntervalSet::pop_index(idx)`'s effect on the backing
vector: `self.0.remove(idx)` guarded by `idx < self.0.len()` (out-of-bounds
indices leave the vector unchanged, as does `List.eraseIdx`). -/
def popIndex (l : Ranges) (idx : Nat) : Ranges := l.eraseIdx idx

/-- Core of `IntervalSet::remove_range` once the `RangeBounds` argument has
been resolved to concrete `start`/`end` values: split at both endpoints and
drain the resulting index range; in the `(None, None)` case drain everything
when `full_range.start < start && end < full_range.end`, else do nothing.
The drained vector `v.drain(a..b)` keeps `v.take a ++ v.drop b`. -/
def removeRange (l : Ranges) (s e : Nat) : Ranges :=
  if e ≤ s then l
  else
    let p1 := splitAt l s
    let p2 := splitAt p1.1 e
    match p1.2, p2.2 with
    | some x, some y => p2.1.take x.2 ++ p2.1.drop y.2
    | some x, none => p2.1.take x.2
    | none, some y => p2.1.drop y.2
    | none, none =>
      let fr := fullRange p2.1
      if fr.1 < s ∧ e < fr.2 then [] else p2.1

/-- Translation of `IntervalSet::remove_range`'s bound resolution: an absent
(unbounded) start is replaced by `self.start()`, an absent end by
`self.end()`, both read before any mutation. -/
def removeRangeB (l : Ranges) (sb eb : Option Nat) : Ranges :=
  removeRange l (sb.getD (startOf l)) (eb.getD (endOf l))

/-- Ranges invariant stated by the spec's data model: ranges pairwise
disjoint in order (each `end` at most the next `start`) and non-empty. -/
def inv (l : Ranges) : Prop :=
  l.Pairwise (fun a b => a.2 ≤ b.1) ∧ ∀ r ∈ l, r.1 < r.2

instance (l : Ranges) : Decidable (inv l) := by
  unfold inv; infer_instance

/-- One mutating call on an `IntervalSet`: either `split_at(p)` or
`remove_range` with optional (unbounded when `none`) endpoints. -/
inductive Op
  | split (p : Nat)
  | remove (sb eb : Option Nat)

/-- Apply one `Op` to a set of ranges. -/
def applyOp (l : Ranges) : Op → Ranges
  | Op.split p => (splitAt l p).1
  | Op.remove sb eb => removeRangeB l sb eb

/-! ## The `mask` partitioning function (`src/interval.rs`, `fn mask`) -/

/-- Translation of `pixels.find(|(_, pixel)| **pixel == v)` on the row's
`enumerate()` iterator: scan the remaining pixels (whose first element has
absolute column index `i`) for value `v`, returning the found column index
together with the not-yet-consumed rest of the row. -/
def findNext (v : Nat) : List Nat → Nat → Option (Nat × List Nat)
  | [], _ => none
  | x :: rest, i => if x = v then some (i, rest) else findNext v rest (i + 1)

/-- Body of `fn mask`'s `while let` loop for one row, with explicit fuel
(each iteration consumes at least one pixel of the row, so any fuel larger
than the number of remaining pixels is enough): find the next white pixel
(`last_white`), split there; find the next black pixel after it
(`first_white`); if none exists, split at `last_white` again and pop the
right index, stopping; otherwise split at the black position and pop the
left index, then continue scanning. -/
def maskRowLoop : Nat → Ranges → List Nat → Nat → Ranges
  | 0, s, _, _ => s
  | fuel + 1, s, rest, i =>
    match findNext 255 rest i with
    | none => s
    | some (lw, rest1) =>
      let s1 := (splitAt s lw).1
      match findNext 0 rest1 (lw + 1) with
      | none =>
        match (splitAt s1 lw).2 with
        | some x => popIndex (splitAt s1 lw).1 x.2
        | none => s1
      | some (fw, rest2) =>
        let s2 :=
          match (splitAt s1 fw).2 with
          | some y => popIndex (splitAt s1 fw).1 y.1
          | none => (splitAt s1 fw).1
        maskRowLoop fuel s2 rest2 (fw + 1)

/-- Effect of `fn mask` on one row's interval set, given that row of the
single-channel mask image (each pixel a `Luma` value in `0..=255`). -/
def maskRow (s : Ranges) (row : List Nat) : Ranges :=
  maskRowLoop (row.length + 1) s row 0

/-- Translation of `fn mask(intervals, mask)`: `mask.rows().zip(intervals)`
pairs rows with sets, mutating each paired set; sets without a mask row are
left untouched, mask rows without a set are ignored. -/
def maskSets : List (List Nat) → List Ranges → List Ranges
  | r :: rows, s :: sets => maskRow s r :: maskSets rows sets
  | _, sets => sets

/-! ## The `random` partitioning function (`src/interval.rs`, `fn random`) -/

/-- Translation of `fn random`'s per-row loop
`while acc < width { acc += rng.gen_range(lower, upper); set.split_at(acc); }`,
with the entropy source made explicit: `draws k` is the value of the `k`-th
call to `gen_range`, and `fuel` bounds the number of loop iterations
(`none` means the loop is still running after `fuel` iterations). -/
def randomRun (draws : Nat → Nat) (width : Nat) : Nat → Nat → Nat → Ranges → Option Ranges
  | 0, _, _, _ => none
  | fuel + 1, k, acc, s =>
    if acc < width then
      randomRun draws width fuel (k + 1) (acc + draws k) (splitAt s (acc + draws k)).1
    else some s

/-- `chainFrom a l w`: the stored ranges of `l`, in order, abut exactly,
starting at `a` and ending at `w` (so their concatenation is `[a, w)`). -/
def chainFrom : Nat → Ranges → Nat → Prop
  | a, [], w => a = w
  | a, r :: rest, w => r.1 = a ∧ chainFrom r.2 rest w

def chainFromDec : (a : Nat) → (l : Ranges) → (w : Nat) → Decidable (chainFrom a l w)
  | a, [], w => decidable_of_iff (a = w) (by rw [chainFrom])
  | a, r :: rest, w =>
    have : Decidable (chainFrom r.2 rest w) := chainFromDec r.2 rest w
    decidable_of_iff (r.1 = a ∧ chainFrom r.2 rest w) (by rw [chainFrom])

instance (a : Nat) (l : Ranges) (w : Nat) : Decidable (chainFrom a l w) :=
  chainFromDec a l w

/-- `covers l w`: the set is non-empty and its ranges abut from 0 to `w` —
the C6 postcondition (no column lost, no gap, no overlap). -/
def covers (l : Ranges) (w : Nat) : Prop := l ≠ [] ∧ chainFrom 0 l w

/-! ## The `split_equal` partitioning function (`src/interval.rs`) -/

/-- Translation of `usize::checked_div`: `None` exactly on division by 0. -/
def checkedDiv (a b : Nat) : Option Nat := if b = 0 then none else some (a / b)

/-- Inner loop of `fn split_equal` on one set:
`for id in 0..part_count { set.split_at(id * width); }`. -/
def iterSplits (s : Ranges) (width n : Nat) : Ranges :=
  (List.range n).foldl (fun t id => (splitAt t (id * width)).1) s

/-- Translation of `fn split_equal(intervals, part_count)`: when
`intervals.len().checked_div(part_count)` yields a width, split every set at
`id * width` for each `id` below `part_count`; on `part_count == 0` nothing
happens. -/
def splitEqual (sets : List Ranges) (partCount : Nat) : List Ranges :=
  match checkedDiv sets.length partCount with
  | none => sets
  | some width => sets.map (fun s => iterSplits s width partCount)

/-! ## The sort-and-rewrite engine (`src/lib.rs`, `fn sort_image`) -/

/-- Stable insertion of `a` in front of the first element whose key exceeds
`key a` (elements with equal key stay before `a`). -/
def insertKey {α : Type} (key : α → Nat) (a : α) : List α → List α
  | [] => [a]
  | b :: t => if key a ≤ key b then a :: b :: t else b :: insertKey key a t

/-- Model of `scratch.sort_by_key(sorting_function)`: Rust's
`slice::sort_by_key` is a *stable* sort, and the stable sort of a sequence
by a fixed key is extensionally unique, so it is modelled by stable
insertion sort by the key. -/
def sortByKey {α : Type} (key : α → Nat) : List α → List α
  | [] => []
  | a :: t => insertKey key a (sortByKey key t)

/-- Columns `[s, s + n)` of a row. -/
def colSeg {α : Type} (l : List α) (s n : Nat) : List α := (l.drop s).take n

/-- Modulus for the `as u32` casts in `sort_image`. -/
def u32Mod : Nat := 2 ^ 32

/-- One iteration of `sort_image`'s inner loop on one row: take the
sub-image of width `range.end as u32 - range.start as u32` (a wrapping `u32`
subtraction of the truncated endpoints) starting at column
`range.start as u32`, collect its pixels into the scratch buffer, sort them
stably by the key, and write them back over the same columns.  Collecting
the pixels panics — modelled as `none` — as soon as the sub-image reaches
outside the row, before anything is written; a width-0 sub-image collects
and writes nothing. -/
def applyRange {α : Type} (key : α → Nat) (row : List α) (s e : Nat) : Option (List α) :=
  let s32 := s % u32Mod
  let e32 := e % u32Mod
  let wdt := (u32Mod + e32 - s32) % u32Mod
  if wdt = 0 then some row
  else if s32 + wdt ≤ row.length then
    some (row.take s32 ++ sortByKey key (colSeg row s32 wdt) ++ row.drop (s32 + wdt))
  else none

/-- `sort_image`'s processing of one row: apply every stored range of the
row's interval set in ascending order. -/
def sortRow {α : Type} (key : α → Nat) : List α → Ranges → Option (List α)
  | row, [] => some row
  | row, r :: rs =>
    match applyRange key row r.1 r.2 with
    | none => none
    | some row1 => sortRow key row1 rs

/-- Translation of `fn sort_image(image, intervals, sorting_function)`:
`intervals.into_iter().enumerate().take(image.height())` pairs each interval
set with its row; rows beyond the interval collection are untouched,
interval sets beyond the image height are ignored.  `none` models a panic
while collecting an out-of-bounds sub-image's pixels. -/
def sortImage {α : Type} (key : α → Nat) : List (List α) → List Ranges → Option (List (List α))
  | rows, [] => some rows
  | [], _ :: _ => some []
  | row :: rows, rs :: sets =>
    match sortRow key row rs with
    | none => none
    | some row1 =>
      match sortImage key rows sets with
      | none => none
      | some rest => some (row1 :: rest)

/-- C1: the spec's mask round-trip scenario fails on the code: for a fresh
width-10 row and mask row `[255,255,0,0,255,255,255,0,0,0]`, `mask()` leaves
the stored ranges `[2,4)` and `[7,10)` — the BLACK runs — not the claimed
white runs `[0,2)` and `[4,7)`.  After splitting at a white-run start and at
the following black-run start, the code pops the LEFT index of the second
split, which is exactly the white run just delimited. -/
theorem C1_mask_keeps_black_runs :
    maskSets [[255, 255, 0, 0, 255, 255, 255, 0, 0, 0]] [newSet 10] = [[(2, 4), (7, 10)]] ∧
    maskSets [[255, 255, 0, 0, 255, 255, 255, 0, 0, 0]] [newSet 10] ≠ [[(0, 2), (4, 7)]] := by
  decide

/-! ## Lemmas about `lastIdxLE` and `splitAt` -/

theorem lastIdxLE_some {l : Ranges} {p i : Nat} (h : lastIdxLE l p = some i) :
    ∃ r, l[i]? = some r ∧ r.1 ≤ p := by
  induction l generalizing i with
  | nil => simp [lastIdxLE] at h
  | cons a rest ih =>
    rw [lastIdxLE] at h
    cases hr : lastIdxLE rest p with
    | some j =>
      rw [hr] at h
      obtain ⟨r, hr1, hr2⟩ := ih hr
      cases h
      exact ⟨r, by simpa using hr1, hr2⟩
    | none =>
      rw [hr] at h
      by_cases ha : a.1 ≤ p
      · simp [ha] at h
        exact ⟨a, by simp [← h], ha⟩
      · simp [ha] at h

theorem lastIdxLE_none {l : Ranges} {p : Nat} (h : lastIdxLE l p = none) :
    ∀ r ∈ l, p < r.1 := by
  induction l with
  | nil => simp
  | cons a rest ih =>
    rw [lastIdxLE] at h
    cases hr : lastIdxLE rest p with
    | some j => rw [hr] at h; exact absurd h (by simp)
    | none =>
      rw [hr] at h
      by_cases ha : a.1 ≤ p
      · simp [ha] at h
      · intro r hrm
        rcases List.mem_cons.mp hrm with rfl | hm
        · omega
        · exact ih hr r hm

theorem lastIdxLE_after {l : Ranges} {p i : Nat} (h : lastIdxLE l p = some i) :
    ∀ k r, i < k → l[k]? = some r → p < r.1 := by
  induction l generalizing i with
  | nil => simp [lastIdxLE] at h
  | cons a rest ih =>
    rw [lastIdxLE] at h
    intro k r hik hk
    cases hr : lastIdxLE rest p with
    | some j =>
      rw [hr] at h
      cases h
      cases k with
      | zero => omega
      | succ k' =>
        exact ih hr k' r (by omega) (by simpa using hk)
    | none =>
      rw [hr] at h
      by_cases ha : a.1 ≤ p
      · simp [ha] at h
        cases k with
        | zero => omega
        | succ k' =>
          have hk' : rest[k']? = some r := by simpa using hk
          obtain ⟨hlt, hv⟩ := List.getElem?_eq_some.mp hk'
          exact lastIdxLE_none hr r (hv ▸ List.getElem_mem hlt)
      · simp [ha] at h

theorem lastIdxLE_intro {l : Ranges} {p i : Nat} {r : Nat × Nat}
    (hget : l[i]? = some r) (hle : r.1 ≤ p)
    (hafter : ∀ k r', i < k → l[k]? = some r' → ¬ r'.1 ≤ p) :
    lastIdxLE l p = some i := by
  induction l generalizing i with
  | nil => simp at hget
  | cons a rest ih =>
    rw [lastIdxLE]
    cases i with
    | zero =>
      simp at hget
      have hrest : lastIdxLE rest p = none := by
        cases hr : lastIdxLE rest p with
        | none => rfl
        | some j =>
          obtain ⟨r', h1, h2⟩ := lastIdxLE_some hr
          exact absurd h2 (hafter (j + 1) r' (by omega) (by simpa using h1))
      rw [hrest]
      simp [hget ▸ hle]
    | succ i' =>
      have : lastIdxLE rest p = some i' := by
        refine ih (by simpa using hget) ?_
        intro k r' hik hk
        exact hafter (k + 1) r' (by omega) (by simpa using hk)
      rw [this]

/-- Unfolding equation for `splitAt` when no candidate range exists. -/
theorem splitAt_eq_none {l : Ranges} {p : Nat} (hli : lastIdxLE l p = none) :
    splitAt l p = (l, none) := by
  unfold splitAt; rw [hli]

/-- Unfolding equation for `splitAt` when the candidate range is found. -/
theorem splitAt_eq_found {l : Ranges} {p idx : Nat} {r : Nat × Nat}
    (hli : lastIdxLE l p = some idx) (hget : l[idx]? = some r) :
    splitAt l p =
      if p < r.2 then
        if r.1 = p then (l, some (idx, idx))
        else (l.take idx ++ [(r.1, p), (p, r.2)] ++ l.drop (idx + 1), some (idx, idx + 1))
      else (l, none) := by
  simp only [splitAt, hli, hget]
  by_cases hpe : p < r.2 <;> by_cases hne : r.1 = p <;> simp [hpe, hne]

/-- Structural description of `splitAt`: it either leaves the list unchanged
or replaces the range at some index `idx` (containing `p` strictly) by the
two halves at `p`. -/
theorem splitAt_shape (l : Ranges) (p : Nat) :
    (splitAt l p).1 = l ∨
      ∃ idx s e, l[idx]? = some (s, e) ∧ s < p ∧ p < e ∧
        (splitAt l p).1 = l.take idx ++ [(s, p), (p, e)] ++ l.drop (idx + 1) ∧
        (splitAt l p).2 = some (idx, idx + 1) := by
  cases hli : lastIdxLE l p with
  | none => rw [splitAt_eq_none hli]; exact Or.inl rfl
  | some idx =>
    obtain ⟨r, hget, hle⟩ := lastIdxLE_some hli
    rw [splitAt_eq_found hli hget]
    by_cases hpe : p < r.2
    · by_cases hne : r.1 = p
      · rw [if_pos hpe, if_pos hne]; exact Or.inl rfl
      · rw [if_pos hpe, if_neg hne]
        exact Or.inr ⟨idx, r.1, r.2, by simpa using hget, by omega, hpe, rfl, rfl⟩
    · rw [if_neg hpe]; exact Or.inl rfl

theorem splitAt_snd_none {l : Ranges} {p : Nat} (h : (splitAt l p).2 = none) :
    (splitAt l p).1 = l := by
  rcases splitAt_shape l p with h1 | ⟨idx, s, e, _, _, _, _, h2⟩
  · exact h1
  · rw [h2] at h; simp at h

/-- The right index returned by `split_at(p)` points (in the updated list)
at a range starting exactly at `p` and containing `p`. -/
theorem splitAt_right_start {l : Ranges} {p : Nat} {ij : Nat × Nat}
    (h : (splitAt l p).2 = some ij) :
    ∃ r, (splitAt l p).1[ij.2]? = some r ∧ r.1 = p ∧ p < r.2 := by
  cases hli : lastIdxLE l p with
  | none => rw [splitAt_eq_none hli] at h; simp at h
  | some idx =>
    obtain ⟨r, hget, hle⟩ := lastIdxLE_some hli
    have hidx : idx < l.length := (List.getElem?_eq_some.mp hget).1
    rw [splitAt_eq_found hli hget] at h ⊢
    by_cases hpe : p < r.2
    · by_cases hne : r.1 = p
      · rw [if_pos hpe, if_pos hne] at h ⊢
        cases h
        exact ⟨r, by simpa using hget, hne, hpe⟩
      · rw [if_pos hpe, if_neg hne] at h ⊢
        cases h
        refine ⟨(p, r.2), ?_, rfl, hpe⟩
        have hlen : (l.take idx ++ [(r.1, p), (p, r.2)]).length = idx + 2 := by
          simp [List.length_take, Nat.min_eq_left (Nat.le_of_lt hidx)]
        have hlen2 : (l.take idx).length = idx :=
          by simp [List.length_take, Nat.min_eq_left (Nat.le_of_lt hidx)]
        show ((l.take idx ++ [(r.1, p), (p, r.2)]) ++ l.drop (idx + 1))[idx + 1]? = some (p, r.2)
        rw [List.getElem?_append, hlen, if_pos (by omega),
          List.getElem?_append, hlen2, if_neg (by omega)]
        have : idx + 1 - idx = 1 := by omega
        rw [this]
        rfl
    · rw [if_neg hpe] at h; simp at h

/-- In a valid set, every range stored strictly before the right split index
ends at or before the split point. -/
theorem splitAt_before {l : Ranges} {p : Nat} {ij : Nat × Nat} (hinv : inv l)
    (h : (splitAt l p).2 = some ij) :
    ∀ k r, k < ij.2 → (splitAt l p).1[k]? = some r → r.2 ≤ p := by
  have hpw := List.pairwise_iff_getElem.mp hinv.1
  cases hli : lastIdxLE l p with
  | none => rw [splitAt_eq_none hli] at h; simp at h
  | some idx =>
    obtain ⟨r, hget, hle⟩ := lastIdxLE_some hli
    have hidx : idx < l.length := (List.getElem?_eq_some.mp hget).1
    have hval : l[idx] = r := (List.getElem?_eq_some.mp hget).2
    rw [splitAt_eq_found hli hget] at h ⊢
    by_cases hpe : p < r.2
    · by_cases hne : r.1 = p
      · rw [if_pos hpe, if_pos hne] at h ⊢
        cases h
        intro k q hk hq
        simp only at hk hq
        have hkl : k < l.length := (List.getElem?_eq_some.mp hq).1
        have hqv : l[k] = q := (List.getElem?_eq_some.mp hq).2
        have := hpw k idx hkl hidx hk
        rw [hqv, hval] at this
        omega
      · rw [if_pos hpe, if_neg hne] at h ⊢
        cases h
        intro k q hk hq
        simp only at hk hq
        have hlen : (l.take idx ++ [(r.1, p), (p, r.2)]).length = idx + 2 := by
          simp [List.length_take, Nat.min_eq_left (Nat.le_of_lt hidx)]
        have hlen2 : (l.take idx).length = idx :=
          by simp [List.length_take, Nat.min_eq_left (Nat.le_of_lt hidx)]
        have hq' : ((l.take idx ++ [(r.1, p), (p, r.2)]) ++ l.drop (idx + 1))[k]? = some q := hq
        rw [List.getElem?_append, hlen, if_pos (by omega),
          List.getElem?_append, hlen2] at hq'
        rcases Nat.lt_or_ge k idx with hki | hki
        · rw [if_pos hki, List.getElem?_take, if_pos hki] at hq'
          have hkl : k < l.length := (List.getElem?_eq_some.mp hq').1
          have hqv : l[k] = q := (List.getElem?_eq_some.mp hq').2
          have := hpw k idx hkl hidx hki
          rw [hqv, hval] at this
          omega
        · rw [if_neg (by omega)] at hq'
          have hk0 : k - idx = 0 := by omega
          rw [hk0, List.getElem?_cons_zero] at hq'
          cases hq'
          exact Nat.le_refl p
    · rw [if_neg hpe] at h; simp at h

/-! ## Preservation of the `IntervalSet` invariant -/

theorem inv_sublist {l' l : Ranges} (h : l'.Sublist l) (hinv : inv l) : inv l' :=
  ⟨hinv.1.sublist h, fun r hr => hinv.2 r (h.subset hr)⟩

theorem take_append_drop_sublist (l : Ranges) {a b : Nat} (h : a ≤ b) :
    (l.take a ++ l.drop b).Sublist l := by
  conv_rhs => rw [← List.take_append_drop a l]
  refine List.Sublist.append_left ?_ _
  have : b = a + (b - a) := by omega
  rw [this, ← List.drop_drop]
  exact List.drop_sublist _ _

theorem mem_take_idx {l : Ranges} {a : Nat × Nat} {n : Nat} (h : a ∈ l.take n) :
    ∃ k, k < n ∧ l[k]? = some a := by
  obtain ⟨k, hk⟩ := List.mem_iff_getElem?.mp h
  rw [List.getElem?_take] at hk
  by_cases hkn : k < n
  · exact ⟨k, hkn, by rwa [if_pos hkn] at hk⟩
  · rw [if_neg hkn] at hk; cases hk

theorem mem_drop_idx {l : Ranges} {a : Nat × Nat} {n : Nat} (h : a ∈ l.drop n) :
    ∃ k, l[n + k]? = some a := by
  obtain ⟨k, hk⟩ := List.mem_iff_getElem?.mp h
  rw [List.getElem?_drop] at hk
  exact ⟨k, hk⟩

theorem inv_splitAt {l : Ranges} (hinv : inv l) (p : Nat) : inv (splitAt l p).1 := by
  rcases splitAt_shape l p with heq | ⟨idx, s, e, hget, hsp, hpe, heq, _⟩
  · rwa [heq]
  · have hpw := List.pairwise_iff_getElem.mp hinv.1
    have hidx : idx < l.length := (List.getElem?_eq_some.mp hget).1
    have hval : l[idx] = (s, e) := (List.getElem?_eq_some.mp hget).2
    have hrel : ∀ b ∈ l.drop (idx + 1), e ≤ b.1 := by
      intro b hb
      obtain ⟨k, hk⟩ := mem_drop_idx hb
      have hkl : idx + 1 + k < l.length := (List.getElem?_eq_some.mp hk).1
      have hbv : l[idx + 1 + k] = b := (List.getElem?_eq_some.mp hk).2
      have := hpw idx (idx + 1 + k) hidx hkl (by omega)
      rw [hval, hbv] at this
      exact this
    have htk : ∀ a ∈ l.take idx, a.2 ≤ s := by
      intro a ha
      obtain ⟨k, hkn, hk⟩ := mem_take_idx ha
      have hkl : k < l.length := (List.getElem?_eq_some.mp hk).1
      have hav : l[k] = a := (List.getElem?_eq_some.mp hk).2
      have := hpw k idx hkl hidx hkn
      rw [hval, hav] at this
      exact this
    constructor
    · rw [heq, List.append_assoc]
      rw [List.pairwise_append]
      refine ⟨hinv.1.sublist (List.take_sublist _ _), ?_, ?_⟩
      · rw [List.pairwise_append]
        refine ⟨?_, hinv.1.sublist (List.drop_sublist _ _), ?_⟩
        · simp [Nat.le_refl]
        · intro a ha b hb
          have he := hrel b hb
          rcases List.mem_cons.mp ha with rfl | ha
          · simp only
            omega
          · rcases List.mem_cons.mp ha with rfl | ha
            · simp only
              omega
            · simp at ha
      · intro a ha b hb
        have has := htk a ha
        rcases List.mem_append.mp hb with hb | hb
        · rcases List.mem_cons.mp hb with rfl | hb
          · simpa using has
          · rcases List.mem_cons.mp hb with rfl | hb
            · simp only
              omega
            · simp at hb
        · have := hrel b hb
          omega
    · intro r hr
      rw [heq, List.append_assoc] at hr
      rcases List.mem_append.mp hr with hr | hr
      · exact hinv.2 r (List.take_subset _ _ hr)
      · rcases List.mem_append.mp hr with hr | hr
        · rcases List.mem_cons.mp hr with rfl | hr
          · exact hsp
          · rcases List.mem_cons.mp hr with rfl | hr
            · exact hpe
            · simp at hr
        · exact hinv.2 r (List.drop_subset _ _ hr)

/-- Indices strictly before the first split point are untouched by a later
split at a point `e` beyond it, in a valid set. -/
theorem splitAt_preserves_earlier {l : Ranges} (hinv : inv l) {s e : Nat} (hse : s < e)
    {ij : Nat × Nat} (h : (splitAt l s).2 = some ij) :
    ∀ k, k < ij.2 → (splitAt (splitAt l s).1 e).1[k]? = (splitAt l s).1[k]? := by
  intro k hk
  have hinv1 : inv (splitAt l s).1 := inv_splitAt hinv s
  rcases splitAt_shape (splitAt l s).1 e with heq | ⟨m, a, b, hget, hae, heb, heq, _⟩
  · rw [heq]
  · have hmlt : m < (splitAt l s).1.length := (List.getElem?_eq_some.mp hget).1
    have hpm : ij.2 ≤ m := by
      by_contra hc
      push_neg at hc
      have := splitAt_before hinv h m (a, b) hc hget
      simp only at this
      omega
    rw [heq]
    have hlen2 : ((splitAt l s).1.take m).length = m := by
      simp [List.length_take, Nat.min_eq_left (Nat.le_of_lt hmlt)]
    have hlen : ((splitAt l s).1.take m ++ [(a, e), (e, b)]).length = m + 2 := by
      simp [hlen2]
    show (((splitAt l s).1.take m ++ [(a, e), (e, b)]) ++ (splitAt l s).1.drop (m + 1))[k]? = _
    rw [List.getElem?_append, hlen, if_pos (by omega),
      List.getElem?_append, hlen2, if_pos (by omega),
      List.getElem?_take, if_pos (by omega)]

theorem inv_removeRange {l : Ranges} (hinv : inv l) (s e : Nat) :
    inv (removeRange l s e) := by
  unfold removeRange
  by_cases he : e ≤ s
  · rwa [if_pos he]
  · rw [if_neg he]
    have hinv1 : inv (splitAt l s).1 := inv_splitAt hinv s
    have hinv2 : inv (splitAt (splitAt l s).1 e).1 := inv_splitAt hinv1 e
    cases o1 : (splitAt l s).2 with
    | none =>
      cases o2 : (splitAt (splitAt l s).1 e).2 with
      | none =>
        simp only [o1, o2]
        by_cases hfr :
            (fullRange (splitAt (splitAt l s).1 e).1).1 < s ∧
              e < (fullRange (splitAt (splitAt l s).1 e).1).2
        · rw [if_pos hfr]
          exact ⟨List.Pairwise.nil, by simp⟩
        · rw [if_neg hfr]
          exact hinv2
      | some y =>
        simp only [o1, o2]
        exact inv_sublist (List.drop_sublist _ _) hinv2
    | some x =>
      cases o2 : (splitAt (splitAt l s).1 e).2 with
      | none =>
        simp only [o1, o2]
        exact inv_sublist (List.take_sublist _ _) hinv2
      | some y =>
        simp only [o1, o2]
        refine inv_sublist (take_append_drop_sublist _ ?_) hinv2
        obtain ⟨r2, hr2get, hr2s, hr2e⟩ := splitAt_right_start o2
        by_contra hc
        push_neg at hc
        have hpre := @splitAt_preserves_earlier l hinv s e (by omega) x o1 y.2 hc
        rw [hr2get] at hpre
        have := splitAt_before hinv o1 y.2 r2 hc hpre.symm
        omega

theorem inv_applyOp {l : Ranges} (hinv : inv l) (op : Op) : inv (applyOp l op) := by
  cases op with
  | split p => exact inv_splitAt hinv p
  | remove sb eb => exact inv_removeRange hinv _ _

theorem inv_foldl (ops : List Op) : ∀ l : Ranges, inv l → inv (ops.foldl applyOp l) := by
  induction ops with
  | nil => intro l h; exact h
  | cons op ops ih =>
    intro l h
    rw [List.foldl_cons]
    exact ih _ (inv_applyOp h op)

/-- C3 (amended): for every positive `size` and every finite sequence of
`split_at` / `remove_range` calls on `IntervalSet::new(size)`, the stored
ranges stay pairwise disjoint in order (each range's end at most the next
range's start, hence starts strictly ascending) and non-empty.  The
positivity assumption is forced: `new(0)` already stores the empty range
`[0,0)` (see the counterexample theorem). -/
theorem C3_invariant_preserved (size : Nat) (hsize : 0 < size) (ops : List Op) :
    inv (ops.foldl applyOp (newSet size)) := by
  refine inv_foldl ops _ ⟨List.pairwise_singleton _ _, ?_⟩
  intro r hr
  rcases List.mem_singleton.mp hr with rfl
  exact hsize

/-- C3, counterexample to the claim as stated: the set created by `new(0)`
(after the empty sequence of calls) stores the empty range `[0,0)`, so the
no-empty-range invariant fails for `size = 0`. -/
theorem C3_counterexample_size_zero :
    ¬ inv (List.foldl applyOp (newSet 0) []) := by
  decide

/-- C3 witness. -/
theorem C3_invariant_preserved_witness :
    0 < 10 ∧ inv (List.foldl applyOp (newSet 10) [Op.split 4, Op.remove (some 1) (some 3)]) :=
  ⟨by decide, C3_invariant_preserved 10 (by decide) [Op.split 4, Op.remove (some 1) (some 3)]⟩

theorem getElem?_mem_ranges {l : Ranges} {i : Nat} {r : Nat × Nat} (h : l[i]? = some r) :
    r ∈ l := by
  obtain ⟨hlt, hv⟩ := List.getElem?_eq_some.mp h
  exact hv ▸ List.getElem_mem hlt

/-- C4: behaviour of `split_at(p)` on a valid set.  (1) If `p` lies strictly
inside the stored range at index `i`, that range is replaced by its two
halves and the pair `(i, i + 1)` is returned.  (2) If `p` equals the start
of the stored range at index `i`, nothing changes, `(i, i)` is returned,
and a second identical call returns the same result on the same set.
(3) If no stored range covers `p`, nothing is returned and nothing changes. -/
theorem C4_split_at_cases (l : Ranges) (hinv : inv l) (p : Nat) :
    (∀ i s e, l[i]? = some (s, e) → s < p → p < e →
        splitAt l p = (l.take i ++ [(s, p), (p, e)] ++ l.drop (i + 1), some (i, i + 1))) ∧
    (∀ i s e, l[i]? = some (s, e) → p = s →
        splitAt l p = (l, some (i, i)) ∧ splitAt (splitAt l p).1 p = splitAt l p) ∧
    ((∀ r ∈ l, ¬(r.1 ≤ p ∧ p < r.2)) → splitAt l p = (l, none)) := by
  have hpw := List.pairwise_iff_getElem.mp hinv.1
  refine ⟨?_, ?_, ?_⟩
  · intro i s e hget hsp hpe
    have hli : lastIdxLE l p = some i := by
      refine lastIdxLE_intro hget (by simpa using Nat.le_of_lt hsp) ?_
      intro k r' hik hk
      have hkl : k < l.length := (List.getElem?_eq_some.mp hk).1
      have hil : i < l.length := (List.getElem?_eq_some.mp hget).1
      have hrv : l[k] = r' := (List.getElem?_eq_some.mp hk).2
      have hiv : l[i] = (s, e) := (List.getElem?_eq_some.mp hget).2
      have := hpw i k hil hkl hik
      rw [hiv, hrv] at this
      simp only at this
      omega
    rw [splitAt_eq_found hli hget, if_pos hpe, if_neg (by simpa using Nat.ne_of_lt hsp)]
  · intro i s e hget hps
    have hse : s < e := hinv.2 (s, e) (getElem?_mem_ranges hget)
    have hli : lastIdxLE l p = some i := by
      refine lastIdxLE_intro hget (by simp [hps]) ?_
      intro k r' hik hk
      have hkl : k < l.length := (List.getElem?_eq_some.mp hk).1
      have hil : i < l.length := (List.getElem?_eq_some.mp hget).1
      have hrv : l[k] = r' := (List.getElem?_eq_some.mp hk).2
      have hiv : l[i] = (s, e) := (List.getElem?_eq_some.mp hget).2
      have := hpw i k hil hkl hik
      rw [hiv, hrv] at this
      simp only at this
      omega
    have heq : splitAt l p = (l, some (i, i)) := by
      rw [splitAt_eq_found hli hget, if_pos (by simpa using hps ▸ hse), if_pos (by simp [hps])]
    exact ⟨heq, by rw [heq]; exact heq⟩
  · intro hnone
    cases hli : lastIdxLE l p with
    | none => exact splitAt_eq_none hli
    | some idx =>
      obtain ⟨r, hget, hle⟩ := lastIdxLE_some hli
      have hnc := hnone r (getElem?_mem_ranges hget)
      rw [splitAt_eq_found hli hget, if_neg (by omega)]

/-- C4 witness: splitting `{[0,2), [3,6)}` at the interior point 4. -/
theorem C4_split_at_cases_witness :
    inv [(0, 2), (3, 6)] ∧
      splitAt [(0, 2), (3, 6)] 4 = ([(0, 2), (3, 4), (4, 6)], some (1, 2)) :=
  ⟨by decide,
    (C4_split_at_cases [(0, 2), (3, 6)] (by decide) 4).1 1 3 6 (by decide) (by decide) (by decide)⟩

/-- C2: `remove_range(3..7)` on the stored ranges `[0,2), [4,6), [8,10)`
drains the whole set (both `split_at` calls fail, the region is strictly
inside `full_range`, so the `(None, None)` arm drains `0..len`), instead of
removing only the contained range `[4,6)` and keeping `[0,2)` and `[8,10)`.
This is the defect flagged by the `FIXME` comments in the source. -/
theorem C2_remove_range_gap_bug :
    removeRange [(0, 2), (4, 6), (8, 10)] 3 7 = [] ∧
    removeRange [(0, 2), (4, 6), (8, 10)] 3 7 ≠ [(0, 2), (8, 10)] := by
  decide

/-! ## C5 / C6: the `random` partitioning function -/

/-- C5 fails on the code: with `lower = 0, upper = 1`, every draw of
`gen_range(0, 1)` is 0 (the only value of `[0, 1)`), the accumulator never
advances past 0, and the per-row loop of `random` on a fresh width-1 row
runs forever: for every iteration bound `fuel` it is still running
(`none`), so the function neither terminates nor rejects the input. -/
theorem C5_random_zero_draw_stalls :
    ∀ fuel k : Nat, randomRun (fun _ => 0) 1 fuel k 0 (newSet 1) = none := by
  intro fuel
  induction fuel with
  | zero => intro k; rfl
  | succ f ih =>
    intro k
    show randomRun (fun _ => 0) 1 f (k + 1) 0 (newSet 1) = none
    exact ih (k + 1)

theorem chainFrom_append {w : Nat} (A : Ranges) :
    ∀ (a : Nat) (B : Ranges),
      chainFrom a (A ++ B) w ↔ ∃ m, chainFrom a A m ∧ chainFrom m B w := by
  induction A with
  | nil =>
    intro a B
    simp [chainFrom]
  | cons r rest ih =>
    intro a B
    rw [List.cons_append]
    show (r.1 = a ∧ chainFrom r.2 (rest ++ B) w) ↔
      ∃ m, (r.1 = a ∧ chainFrom r.2 rest m) ∧ chainFrom m B w
    constructor
    · rintro ⟨hra, hrest⟩
      obtain ⟨m, h1, h2⟩ := (ih r.2 B).mp hrest
      exact ⟨m, ⟨hra, h1⟩, h2⟩
    · rintro ⟨m, ⟨hra, h1⟩, h2⟩
      exact ⟨hra, (ih r.2 B).mpr ⟨m, h1, h2⟩⟩

theorem covers_splitAt {l : Ranges} {w : Nat} (h : covers l w) (p : Nat) :
    covers (splitAt l p).1 w := by
  rcases splitAt_shape l p with heq | ⟨idx, s, e, hget, hsp, hpe, heq, _⟩
  · rwa [heq]
  · obtain ⟨hne, hch⟩ := h
    have hidx : idx < l.length := (List.getElem?_eq_some.mp hget).1
    have hval : l[idx] = (s, e) := (List.getElem?_eq_some.mp hget).2
    have hdec : l = l.take idx ++ (s, e) :: l.drop (idx + 1) := by
      rw [← hval, List.getElem_cons_drop, List.take_append_drop]
    constructor
    · rw [heq]
      simp
    · rw [heq, List.append_assoc]
      rw [hdec] at hch
      obtain ⟨m, h1, h2⟩ := (chainFrom_append _ _ _).mp hch
      have h2' : s = m ∧ chainFrom e (l.drop (idx + 1)) w := h2
      refine (chainFrom_append _ _ _).mpr ⟨m, h1, ?_⟩
      rw [List.cons_append]
      exact ⟨h2'.1, rfl, h2'.2⟩

theorem randomRun_terminates {draws : Nat → Nat} {width : Nat}
    (hd : ∀ k, 1 ≤ draws k) :
    ∀ fuel k acc s, covers s width → width < acc + fuel → 1 ≤ fuel →
      ∃ s', randomRun draws width fuel k acc s = some s' ∧ covers s' width := by
  intro fuel
  induction fuel with
  | zero => intro k acc s _ _ hf; omega
  | succ f ih =>
    intro k acc s hc hlt _
    by_cases ha : acc < width
    · have hdk := hd k
      have h1f : 1 ≤ f := by omega
      have hlt' : width < (acc + draws k) + f := by omega
      obtain ⟨s', hs', hc'⟩ :=
        ih (k + 1) (acc + draws k) (splitAt s (acc + draws k)).1 (covers_splitAt hc _) hlt' h1f
      refine ⟨s', ?_, hc'⟩
      rw [randomRun, if_pos ha]
      exact hs'
    · refine ⟨s, ?_, hc⟩
      rw [randomRun, if_neg ha]

/-- C6: for `0 < lower < upper` and any sequence of draws from
`[lower, upper)`, the per-row loop of `random` on the fresh single range
`[0, width)` terminates within `width + 1` iterations, and the resulting
stored ranges abut exactly and concatenate to `[0, width)`: no column lost,
no gap, no overlap. -/
theorem C6_random_partitions (lower upper width : Nat) (draws : Nat → Nat)
    (hl : 0 < lower) (_hu : lower < upper)
    (hd : ∀ k, lower ≤ draws k ∧ draws k < upper) :
    ∃ s', randomRun draws width (width + 1) 0 0 (newSet width) = some s' ∧
      covers s' width := by
  exact randomRun_terminates (fun k => le_trans hl (hd k).1) (width + 1) 0 0 _
    ⟨by simp [newSet], ⟨rfl, rfl⟩⟩ (by omega) (by omega)

/-- C6 witness: draws constantly 1 from `[1, 2)` on a width-2 row. -/
theorem C6_random_partitions_witness :
    (0 < 1 ∧ 1 < 2 ∧ ∀ k : Nat, 1 ≤ (fun _ : Nat => 1) k ∧ (fun _ : Nat => 1) k < 2) ∧
      ∃ s', randomRun (fun _ => 1) 2 3 0 0 (newSet 2) = some s' ∧ covers s' 2 :=
  ⟨⟨Nat.one_pos, Nat.lt_succ_self 1, fun _ => ⟨Nat.le_refl 1, Nat.lt_succ_self 1⟩⟩,
    C6_random_partitions 1 2 2 (fun _ => 1) Nat.one_pos (Nat.lt_succ_self 1)
      (fun _ => ⟨Nat.le_refl 1, Nat.lt_succ_self 1⟩)⟩

/-! ## C9: `split_equal` -/

theorem splitAt_zero (l : Ranges) : (splitAt l 0).1 = l := by
  rcases splitAt_shape l 0 with heq | ⟨idx, s, e, hget, hsp, hpe, heq, _⟩
  · exact heq
  · omega

theorem foldl_splitAt_zero_width (ids : List Nat) :
    ∀ l : Ranges, ids.foldl (fun t id => (splitAt t (id * 0)).1) l = l := by
  induction ids with
  | nil => intro l; rfl
  | cons i ids ih =>
    intro l
    rw [List.foldl_cons, Nat.mul_zero, splitAt_zero]
    exact ih l

theorem iterSplits_zero_width (s : Ranges) (n : Nat) : iterSplits s 0 n = s :=
  foldl_splitAt_zero_width (List.range n) s

theorem inv_iterSplits {s : Ranges} (h : inv s) (width n : Nat) :
    inv (iterSplits s width n) := by
  unfold iterSplits
  generalize List.range n = ids
  induction ids generalizing s with
  | nil => exact h
  | cons i ids ih =>
    rw [List.foldl_cons]
    exact ih (inv_splitAt h _)

/-- C9: `split_equal` never divides by zero (`checked_div` returns `None`
exactly for `part_count == 0`, skipping all work) and never panics.
With `part_count == 0` the collection is unchanged; with
`part_count > row_count` the computed width is 0, every split happens at
column 0 and the collection is again unchanged; validity of every interval
set is preserved for every `part_count`; and for
`0 < part_count <= row_count` each set is split at `id * width`,
`width = row_count / part_count` (integer division), for every
`id` in `0..part_count`. -/
theorem C9_split_equal (sets : List Ranges) (partCount : Nat) :
    (partCount = 0 → splitEqual sets partCount = sets) ∧
    (sets.length < partCount → splitEqual sets partCount = sets) ∧
    ((∀ s ∈ sets, inv s) → ∀ s' ∈ splitEqual sets partCount, inv s') ∧
    (0 < partCount →
      splitEqual sets partCount =
        sets.map (fun s => iterSplits s (sets.length / partCount) partCount)) := by
  refine ⟨?_, ?_, ?_, ?_⟩
  · intro h0
    subst h0
    rfl
  · intro hlt
    have hne : partCount ≠ 0 := by omega
    unfold splitEqual checkedDiv
    rw [if_neg hne, Nat.div_eq_of_lt hlt]
    have : ∀ l : List Ranges, l.map (fun s => iterSplits s 0 partCount) = l := by
      intro l
      induction l with
      | nil => rfl
      | cons x xs ih => rw [List.map_cons, iterSplits_zero_width, ih]
    exact this sets
  · intro hall s' hs'
    unfold splitEqual checkedDiv at hs'
    by_cases hne : partCount = 0
    · rw [if_pos hne] at hs'
      exact hall s' hs'
    · rw [if_neg hne] at hs'
      obtain ⟨s, hs, rfl⟩ := List.mem_map.mp hs'
      exact inv_iterSplits (hall s hs) _ _
  · intro hpos
    unfold splitEqual checkedDiv
    rw [if_neg (by omega)]

/-- C9 witness: two width-4 rows split into 2 parts (width `2 / 2 = 1`,
splits at columns 0 and 1). -/
theorem C9_split_equal_witness :
    (∀ s ∈ [[(0, 4)], [(0, 4)]], inv s) ∧
      (∀ s' ∈ splitEqual [[(0, 4)], [(0, 4)]] 2, inv s') ∧
      splitEqual [[(0, 4)], [(0, 4)]] 2 = [[(0, 1), (1, 4)], [(0, 1), (1, 4)]] :=
  ⟨by decide, (C9_split_equal [[(0, 4)], [(0, 4)]] 2).2.2.1 (by decide), by decide⟩

/-! ## Lemmas about the stable sort -/

theorem insertKey_perm {α : Type} (key : α → Nat) (a : α) (l : List α) :
    (insertKey key a l).Perm (a :: l) := by
  induction l with
  | nil => exact List.Perm.refl _
  | cons b t ih =>
    rw [insertKey]
    by_cases h : key a ≤ key b
    · rw [if_pos h]
    · rw [if_neg h]
      exact List.Perm.trans (ih.cons b) (List.Perm.swap a b t)

theorem sortByKey_perm {α : Type} (key : α → Nat) (l : List α) :
    (sortByKey key l).Perm l := by
  induction l with
  | nil => exact List.Perm.refl _
  | cons a t ih =>
    rw [sortByKey]
    exact List.Perm.trans (insertKey_perm key a _) (ih.cons a)

theorem sortByKey_length {α : Type} (key : α → Nat) (l : List α) :
    (sortByKey key l).length = l.length :=
  (sortByKey_perm key l).length_eq

theorem insertKey_filter_eq {α : Type} (key : α → Nat) (k : Nat) (a : α) (l : List α)
    (ha : key a = k) :
    (insertKey key a l).filter (fun x => key x == k) =
      a :: l.filter (fun x => key x == k) := by
  induction l with
  | nil => simp [insertKey, List.filter_cons, ha]
  | cons b t ih =>
    rw [insertKey]
    by_cases h : key a ≤ key b
    · rw [if_pos h, List.filter_cons, if_pos (by simp [ha])]
    · rw [if_neg h]
      have hb : (key b == k) = false := by
        simp only [beq_eq_false_iff_ne, ne_eq]
        omega
      rw [List.filter_cons, hb, List.filter_cons, hb]
      simp only [Bool.false_eq_true, if_false]
      exact ih

theorem insertKey_filter_ne {α : Type} (key : α → Nat) (k : Nat) (a : α) (l : List α)
    (ha : key a ≠ k) :
    (insertKey key a l).filter (fun x => key x == k) =
      l.filter (fun x => key x == k) := by
  have ha' : (key a == k) = false := by
    simp only [beq_eq_false_iff_ne, ne_eq]
    exact ha
  induction l with
  | nil => simp [insertKey, List.filter_cons, ha']
  | cons b t ih =>
    rw [insertKey]
    by_cases h : key a ≤ key b
    · rw [if_pos h, List.filter_cons, ha']
      simp only [Bool.false_eq_true, if_false]
    · rw [if_neg h, List.filter_cons, List.filter_cons]
      rw [ih]

theorem sortByKey_filter {α : Type} (key : α → Nat) (k : Nat) (l : List α) :
    (sortByKey key l).filter (fun x => key x == k) =
      l.filter (fun x => key x == k) := by
  induction l with
  | nil => rfl
  | cons a t ih =>
    rw [sortByKey]
    by_cases ha : key a = k
    · rw [insertKey_filter_eq key k a _ ha, ih, List.filter_cons, if_pos (by simp [ha])]
    · rw [insertKey_filter_ne key k a _ ha, ih, List.filter_cons]
      have ha' : (key a == k) = false := by
        simp only [beq_eq_false_iff_ne, ne_eq]
        exact ha
      rw [ha']
      simp only [Bool.false_eq_true, if_false]

theorem sortByKey_of_const {α : Type} (key : α → Nat) (l : List α)
    (h : ∀ x ∈ l, ∀ y ∈ l, key x = key y) : sortByKey key l = l := by
  induction l with
  | nil => rfl
  | cons a t ih =>
    rw [sortByKey]
    rw [ih (fun x hx y hy => h x (List.mem_cons_of_mem a hx) y (List.mem_cons_of_mem a hy))]
    cases t with
    | nil => rfl
    | cons b t' =>
      rw [insertKey,
        if_pos (Nat.le_of_eq (h a (List.mem_cons_self a _) b
          (List.mem_cons_of_mem a (List.mem_cons_self b t'))))]

/-! ## Lemmas about `applyRange` -/

theorem applyRange_eq {α : Type} (key : α → Nat) (row : List α) {s e : Nat}
    (hse : s ≤ e) (hew : e ≤ row.length) (hw : row.length < u32Mod) :
    applyRange key row s e =
      some (row.take s ++ sortByKey key (colSeg row s (e - s)) ++ row.drop e) := by
  have hs32 : s % u32Mod = s := Nat.mod_eq_of_lt (by omega)
  have he32 : e % u32Mod = e := Nat.mod_eq_of_lt (by omega)
  have hwdt : (u32Mod + e % u32Mod - s % u32Mod) % u32Mod = e - s := by
    rw [hs32, he32]
    have h1 : u32Mod + e - s = u32Mod + (e - s) := by omega
    rw [h1, Nat.add_mod_left, Nat.mod_eq_of_lt (by omega)]
  simp only [applyRange]
  rw [hwdt, hs32]
  by_cases h0 : e - s = 0
  · rw [if_pos h0]
    have hes : e = s := by omega
    subst hes
    rw [h0]
    have : colSeg row e 0 = [] := by simp [colSeg]
    rw [this]
    have : sortByKey key ([] : List α) = [] := rfl
    rw [this, List.append_nil, List.take_append_drop]
  · rw [if_neg h0, if_pos (by omega)]
    have hpe : s + (e - s) = e := by omega
    rw [hpe]

theorem applyRange_oob {α : Type} (key : α → Nat) (row : List α) {s e : Nat}
    (hs : s < u32Mod) (he : e < u32Mod) (hse : s < e) (hbad : row.length < e) :
    applyRange key row s e = none := by
  have hs32 : s % u32Mod = s := Nat.mod_eq_of_lt hs
  have he32 : e % u32Mod = e := Nat.mod_eq_of_lt he
  have hwdt : (u32Mod + e % u32Mod - s % u32Mod) % u32Mod = e - s := by
    rw [hs32, he32]
    have h1 : u32Mod + e - s = u32Mod + (e - s) := by omega
    rw [h1, Nat.add_mod_left, Nat.mod_eq_of_lt (by omega)]
  simp only [applyRange]
  rw [hwdt, hs32]
  rw [if_neg (by omega), if_neg (by omega)]

theorem applyRange_length {α : Type} {key : α → Nat} {row row' : List α} {s e : Nat}
    (h : applyRange key row s e = some row') : row'.length = row.length := by
  simp only [applyRange] at h
  split at h
  · cases h; rfl
  · split at h
    · cases h
      rename_i hnz hle
      simp only [List.length_append, List.length_take, List.length_drop,
        sortByKey_length, colSeg, List.length_take, List.length_drop]
      omega
    · cases h

/-! ## Patch lemmas: writing a same-length segment back into a row -/

theorem patch_getElem_outside {α : Type} (row mid : List α) {s e c : Nat}
    (hse : s ≤ e) (hew : e ≤ row.length) (hmid : mid.length = e - s)
    (hc : c < s ∨ e ≤ c) :
    (row.take s ++ mid ++ row.drop e)[c]? = row[c]? := by
  have hts : (row.take s).length = s := by
    rw [List.length_take]
    omega
  have hlen : (row.take s ++ mid).length = e := by
    rw [List.length_append, hts, hmid]
    omega
  show ((row.take s ++ mid) ++ row.drop e)[c]? = row[c]?
  rcases hc with hc | hc
  · rw [List.getElem?_append, hlen, if_pos (by omega),
      List.getElem?_append, hts, if_pos hc, List.getElem?_take, if_pos hc]
  · rw [List.getElem?_append, hlen, if_neg (by omega), List.getElem?_drop]
    have : e + (c - e) = c := by omega
    rw [this]

theorem patch_colSeg {α : Type} (row mid : List α) {s e : Nat}
    (hse : s ≤ e) (hew : e ≤ row.length) (hmid : mid.length = e - s) :
    colSeg (row.take s ++ mid ++ row.drop e) s (e - s) = mid := by
  have hts : (row.take s).length = s := by
    rw [List.length_take]
    omega
  show ((row.take s ++ mid ++ row.drop e).drop s).take (e - s) = mid
  rw [List.append_assoc, List.drop_left' hts, ← hmid, List.take_left]

theorem colSeg_congr {α : Type} {l1 l2 : List α} (s n : Nat)
    (h : ∀ j, j < n → l1[s + j]? = l2[s + j]?) : colSeg l1 s n = colSeg l2 s n := by
  apply List.ext_getElem?
  intro j
  show ((l1.drop s).take n)[j]? = ((l2.drop s).take n)[j]?
  rw [List.getElem?_take, List.getElem?_take]
  by_cases hj : j < n
  · rw [if_pos hj, if_pos hj, List.getElem?_drop, List.getElem?_drop]
    exact h j hj
  · rw [if_neg hj, if_neg hj]

theorem take_colSeg_drop {α : Type} (row : List α) {s e : Nat}
    (hse : s ≤ e) :
    row.take s ++ colSeg row s (e - s) ++ row.drop e = row := by
  show row.take s ++ (row.drop s).take (e - s) ++ row.drop e = row
  have h1 : row.take s ++ (row.drop s).take (e - s) = row.take e := by
    have h2 := List.take_add row s (e - s)
    rw [show s + (e - s) = e from by omega] at h2
    exact h2.symm
  rw [h1]
  exact List.take_append_drop e row

/-! ## Row-level specification of the sort-and-rewrite engine -/

theorem sortRow_spec {α : Type} (key : α → Nat) :
    ∀ (rs : Ranges) (row : List α), inv rs → (∀ r ∈ rs, r.2 ≤ row.length) →
      row.length < u32Mod →
      ∃ orow, sortRow key row rs = some orow ∧ orow.length = row.length ∧
        (∀ c, (∀ r ∈ rs, ¬(r.1 ≤ c ∧ c < r.2)) → orow[c]? = row[c]?) ∧
        (∀ r ∈ rs, (colSeg orow r.1 (r.2 - r.1)).Perm (colSeg row r.1 (r.2 - r.1))) := by
  intro rs
  induction rs with
  | nil =>
    intro row _ _ _
    exact ⟨row, rfl, rfl, fun c _ => rfl, by simp⟩
  | cons r rs ih =>
    intro row hinv hbound hw
    have hse : r.1 < r.2 := hinv.2 r (List.mem_cons_self r rs)
    have hew : r.2 ≤ row.length := hbound r (List.mem_cons_self r rs)
    have hrest : ∀ q ∈ rs, r.2 ≤ q.1 := (List.pairwise_cons.mp hinv.1).1
    have hinv' : inv rs :=
      ⟨(List.pairwise_cons.mp hinv.1).2, fun q hq => hinv.2 q (List.mem_cons_of_mem r hq)⟩
    have happ := applyRange_eq key row (Nat.le_of_lt hse) hew hw
    set mid := sortByKey key (colSeg row r.1 (r.2 - r.1)) with hmid
    set row1 := row.take r.1 ++ mid ++ row.drop r.2 with hrow1
    have hmidlen : mid.length = r.2 - r.1 := by
      rw [hmid, sortByKey_length]
      show ((row.drop r.1).take (r.2 - r.1)).length = r.2 - r.1
      rw [List.length_take, List.length_drop]
      omega
    have hlen1 : row1.length = row.length := applyRange_length happ
    have hout1 : ∀ c, c < r.1 ∨ r.2 ≤ c → row1[c]? = row[c]? := fun c hc =>
      patch_getElem_outside row mid (Nat.le_of_lt hse) hew hmidlen hc
    obtain ⟨orow, hrun, hlen2, hframe, hperm⟩ :=
      ih row1 hinv' (fun q hq => by rw [hlen1]; exact hbound q (List.mem_cons_of_mem r hq))
        (by rw [hlen1]; exact hw)
    refine ⟨orow, ?_, hlen2.trans hlen1, ?_, ?_⟩
    · simp only [sortRow]
      rw [happ]
      exact hrun
    · intro c hc
      have hc0 := hc r (List.mem_cons_self r rs)
      rw [hframe c (fun q hq => hc q (List.mem_cons_of_mem r hq))]
      exact hout1 c (by omega)
    · intro q hq
      rcases List.mem_cons.mp hq with rfl | hq
      · have hseg1 : colSeg orow q.1 (q.2 - q.1) = colSeg row1 q.1 (q.2 - q.1) := by
          apply colSeg_congr
          intro j hj
          apply hframe
          intro q' hq'
          have := hrest q' hq'
          omega
        have hseg2 : colSeg row1 q.1 (q.2 - q.1) = mid :=
          patch_colSeg row mid (Nat.le_of_lt hse) hew hmidlen
        rw [hseg1, hseg2, hmid]
        exact sortByKey_perm key _
      · have hseg : colSeg row1 q.1 (q.2 - q.1) = colSeg row q.1 (q.2 - q.1) := by
          apply colSeg_congr
          intro j hj
          apply hout1
          right
          have := hrest q hq
          omega
        exact hseg ▸ hperm q hq

/-- C7: `sort_image` sorts each interval with a *stable* sort
(`scratch.sort_by_key`, Rust's stable slice sort): on a 1-row image with a
single interval `[s, e)`, for every key value `k` the pixels of key `k`
inside the interval keep their relative order (the filtered subsequences
coincide), and if all pixels of the interval share one key the row is
completely unchanged. -/
theorem C7_sort_image_stable {α : Type} (key : α → Nat) (row : List α) (s e : Nat)
    (hse : s ≤ e) (hew : e ≤ row.length) (hw : row.length < u32Mod) :
    ∃ out, sortImage key [row] [[(s, e)]] = some [out] ∧
      (∀ k, (colSeg out s (e - s)).filter (fun x => key x == k) =
        (colSeg row s (e - s)).filter (fun x => key x == k)) ∧
      ((∀ x ∈ colSeg row s (e - s), ∀ y ∈ colSeg row s (e - s), key x = key y) →
        out = row) := by
  have happ := applyRange_eq key row hse hew hw
  set mid := sortByKey key (colSeg row s (e - s)) with hmid
  set out := row.take s ++ mid ++ row.drop e with hout
  have hmidlen : mid.length = e - s := by
    rw [hmid, sortByKey_length]
    show ((row.drop s).take (e - s)).length = e - s
    rw [List.length_take, List.length_drop]
    omega
  refine ⟨out, ?_, ?_, ?_⟩
  · have h1 : sortRow key row [(s, e)] = some out := by
      simp only [sortRow]
      rw [happ]
    simp only [sortImage]
    rw [h1]
  · intro k
    rw [patch_colSeg row mid hse hew hmidlen, hmid]
    exact sortByKey_filter key k _
  · intro hconst
    have hid : sortByKey key (colSeg row s (e - s)) = colSeg row s (e - s) :=
      sortByKey_of_const key _ hconst
    rw [hout, hmid, hid]
    exact take_colSeg_drop row hse

/-- C7 witness: a 1-row image whose two pixels share the constant key 5. -/
theorem C7_sort_image_stable_witness :
    (0 ≤ 2 ∧ 2 ≤ [10, 20].length ∧ [10, 20].length < u32Mod) ∧
      ∃ out, sortImage (fun _ : Nat => 5) [[10, 20]] [[(0, 2)]] = some [out] ∧
        (∀ k, (colSeg out 0 (2 - 0)).filter (fun _ => 5 == k) =
          (colSeg [10, 20] 0 (2 - 0)).filter (fun _ => 5 == k)) ∧
        ((∀ x ∈ colSeg [10, 20] 0 (2 - 0), ∀ y ∈ colSeg [10, 20] 0 (2 - 0),
            (fun _ : Nat => 5) x = (fun _ : Nat => 5) y) → out = [10, 20]) :=
  ⟨⟨by omega, by decide, by decide⟩,
    C7_sort_image_stable (fun _ : Nat => 5) [10, 20] 0 2 (by omega) (by decide) (by decide)⟩

/-! ## C8: out-of-bounds ranges abort before writing -/

theorem sortRow_oob {α : Type} (key : α → Nat) :
    ∀ (rs : Ranges) (row : List α) (w : Nat), row.length = w → w < u32Mod →
      (∃ r, r ∈ rs ∧ r.1 < u32Mod ∧ r.2 < u32Mod ∧ r.1 < r.2 ∧ w < r.2) →
      sortRow key row rs = none := by
  intro rs
  induction rs with
  | nil =>
    rintro row w _ _ ⟨r, hr, _⟩
    simp at hr
  | cons q rs ih =>
    rintro row w hl hw ⟨r, hr, h1, h2, h3, h4⟩
    rcases List.mem_cons.mp hr with rfl | hr
    · simp only [sortRow]
      rw [applyRange_oob key row h1 h2 h3 (by omega)]
    · simp only [sortRow]
      cases happ : applyRange key row q.1 q.2 with
      | none => rfl
      | some row1 =>
        exact ih row1 w (by rw [applyRange_length happ, hl]) hw ⟨r, hr, h1, h2, h3, h4⟩

theorem sortImage_oob {α : Type} (key : α → Nat) :
    ∀ (img : List (List α)) (sets : List Ranges) (w i : Nat) (rs : Ranges),
      (∀ row ∈ img, row.length = w) → w < u32Mod →
      sets[i]? = some rs → i < img.length →
      (∃ r, r ∈ rs ∧ r.1 < u32Mod ∧ r.2 < u32Mod ∧ r.1 < r.2 ∧ w < r.2) →
      sortImage key img sets = none := by
  intro img
  induction img with
  | nil =>
    intro sets w i rs _ _ _ hi _
    simp at hi
  | cons row rows ih =>
    intro sets w i rs hrows hw hsets hi hbad
    cases sets with
    | nil => simp at hsets
    | cons rs0 sets =>
      cases i with
      | zero =>
        have hrs : rs0 = rs := by simpa using hsets
        simp only [sortImage]
        rw [sortRow_oob key rs0 row w (hrows row (List.mem_cons_self _ _)) hw
          (hrs ▸ hbad)]
      | succ i' =>
        simp only [sortImage]
        cases hrun : sortRow key row rs0 with
        | none => rfl
        | some row1 =>
          rw [ih sets w i' rs (fun q hq => hrows q (List.mem_cons_of_mem _ hq)) hw
            (by simpa using hsets) (by simpa using hi) hbad]

/-- C8: if any stored range of a row inside the processed region is
non-empty and its end exceeds the image width (all values below the `u32`
modulus of the casts), `sort_image` aborts with the panic raised while
*collecting* the out-of-bounds sub-image's pixels (`none`), which happens
before any pixel of that range is written: the error is distinguishable and
no out-of-bounds write is performed. -/
theorem C8_sort_image_oob {α : Type} (key : α → Nat) (img : List (List α))
    (sets : List Ranges) (w i : Nat) (rs : Ranges) (r : Nat × Nat)
    (hrows : ∀ row ∈ img, row.length = w) (hw : w < u32Mod)
    (hsets : sets[i]? = some rs) (hi : i < img.length) (hr : r ∈ rs)
    (h1 : r.1 < u32Mod) (h2 : r.2 < u32Mod) (h3 : r.1 < r.2) (h4 : w < r.2) :
    sortImage key img sets = none :=
  sortImage_oob key img sets w i rs hrows hw hsets hi ⟨r, hr, h1, h2, h3, h4⟩

/-- C8 witness: a 1×1 image with the range `[0, 2)` exceeding width 1. -/
theorem C8_sort_image_oob_witness :
    ((∀ row ∈ [[7]], List.length row = 1) ∧ 1 < u32Mod ∧
      [[(0, 2)]][0]? = some [(0, 2)] ∧ 0 < [[7]].length ∧ (0, 2) ∈ [(0, 2)] ∧
      0 < u32Mod ∧ 2 < u32Mod ∧ 0 < 2 ∧ 1 < 2) ∧
      sortImage (fun x : Nat => x) [[7]] [[(0, 2)]] = none :=
  ⟨⟨by decide, by decide, by decide, by decide, by decide, by decide, by decide,
      by decide, by decide⟩,
    C8_sort_image_oob (fun x : Nat => x) [[7]] [[(0, 2)]] 1 0 [(0, 2)] (0, 2)
      (by decide) (by decide) (by decide) (by decide) (by decide) (by decide)
      (by decide) (by decide) (by decide)⟩

/-! ## C10: frame and permutation properties of `sort_image` -/

/-- C10: on a successful run (valid interval sets, ranges within the image
width, realistic dimensions), `sort_image` returns an image of the same
shape in which rows beyond the interval collection are untouched, columns
of a processed row lying outside every stored range are untouched, and the
content of each stored range is a permutation of what was there before. -/
theorem C10_sort_image_frame {α : Type} (key : α → Nat) :
    ∀ (img : List (List α)) (sets : List Ranges) (w : Nat),
      (∀ row ∈ img, row.length = w) → w < u32Mod →
      (∀ s ∈ sets, inv s) → (∀ s ∈ sets, ∀ r ∈ s, r.2 ≤ w) →
      ∃ out, sortImage key img sets = some out ∧
        out.length = img.length ∧
        (∀ i, sets.length ≤ i → out[i]? = img[i]?) ∧
        (∀ (i : Nat) (rs : Ranges) (row orow : List α),
          sets[i]? = some rs → img[i]? = some row → out[i]? = some orow →
          (∀ c, (∀ r ∈ rs, ¬(r.1 ≤ c ∧ c < r.2)) → orow[c]? = row[c]?) ∧
          (∀ r ∈ rs, (colSeg orow r.1 (r.2 - r.1)).Perm (colSeg row r.1 (r.2 - r.1)))) := by
  intro img
  induction img with
  | nil =>
    intro sets w _ _ _ _
    cases sets with
    | nil =>
      refine ⟨[], rfl, rfl, fun i _ => rfl, ?_⟩
      intro i rs row orow _ h2 _
      simp at h2
    | cons s ss =>
      refine ⟨[], rfl, rfl, fun i _ => rfl, ?_⟩
      intro i rs row orow _ h2 _
      simp at h2
  | cons row rows ih =>
    intro sets w hrows hw hinvs hbounds
    cases sets with
    | nil =>
      refine ⟨row :: rows, rfl, rfl, fun i _ => rfl, ?_⟩
      intro i rs row' orow' h1 _ _
      simp at h1
    | cons rs0 sets =>
      have hrowlen : row.length = w := hrows row (List.mem_cons_self _ _)
      obtain ⟨orow, hrun, _, hframe, hperm⟩ :=
        sortRow_spec key rs0 row (hinvs rs0 (List.mem_cons_self _ _))
          (fun r hr => by rw [hrowlen]; exact hbounds rs0 (List.mem_cons_self _ _) r hr)
          (by rw [hrowlen]; exact hw)
      obtain ⟨out, hrun2, hlen2, hbeyond, hrows2⟩ :=
        ih sets w (fun q hq => hrows q (List.mem_cons_of_mem _ hq)) hw
          (fun s hs => hinvs s (List.mem_cons_of_mem _ hs))
          (fun s hs => hbounds s (List.mem_cons_of_mem _ hs))
      refine ⟨orow :: out, ?_, by simp [hlen2], ?_, ?_⟩
      · simp only [sortImage]
        rw [hrun, hrun2]
      · intro i hi
        cases i with
        | zero => simp at hi
        | succ i' =>
          rw [List.getElem?_cons_succ, List.getElem?_cons_succ]
          exact hbeyond i' (by simpa using hi)
      · intro i rs row' orow' h1 h2 h3
        cases i with
        | zero =>
          have e1 : rs0 = rs := by simpa using h1
          have e2 : row = row' := by simpa using h2
          have e3 : orow = orow' := by simpa using h3
          subst e1
          subst e2
          subst e3
          exact ⟨hframe, hperm⟩
        | succ i' =>
          exact hrows2 i' rs row' orow' (by simpa using h1) (by simpa using h2)
            (by simpa using h3)

/-- C10 witness: a 1×2 image, identity key, single full-width interval. -/
theorem C10_sort_image_frame_witness :
    ((∀ row ∈ [[5, 3]], List.length row = 2) ∧ 2 < u32Mod ∧
      (∀ s ∈ [[(0, 2)]], inv s) ∧ (∀ s ∈ [[(0, 2)]], ∀ r ∈ s, r.2 ≤ 2)) ∧
      ∃ out, sortImage (fun x : Nat => x) [[5, 3]] [[(0, 2)]] = some out ∧
        out.length = [[5, 3]].length ∧
        (∀ i, [[(0, 2)]].length ≤ i → out[i]? = [[5, 3]][i]?) ∧
        (∀ (i : Nat) (rs : Ranges) (row orow : List Nat),
          [[(0, 2)]][i]? = some rs → [[5, 3]][i]? = some row → out[i]? = some orow →
          (∀ c, (∀ r ∈ rs, ¬(r.1 ≤ c ∧ c < r.2)) → orow[c]? = row[c]?) ∧
          (∀ r ∈ rs, (colSeg orow r.1 (r.2 - r.1)).Perm (colSeg row r.1 (r.2 - r.1)))) :=
  ⟨⟨by decide, by decide, by decide, by decide⟩,
    C10_sort_image_frame (fun x : Nat => x) [[5, 3]] [[(0, 2)]] 2
      (by decide) (by decide) (by decide) (by decide)⟩

end Pixelsort
